import Mathlib

set_option maxRecDepth 100000

/-!
Shallow embedding of the downcan tool (src/downcan.go).

The program scans a directory tree for files whose content sniffs as a ZIP
archive, derives for each one a destination directory
`Dir(p)/expanded/<Base(p) minus its last four characters>`, skips archives
whose destination already exists, and otherwise creates the destination and
extracts the archive entries into it.

Modelling choices, stated once here:
* bytes are `Nat` values (the code only compares them against fixed byte
  constants, never overflows them);
* fallible operations return `Except`/`Option`;
* the scanned tree is an explicit inductive (`FSNode`), the mutable
  filesystem touched by extraction is an explicit state record (`FS`) whose
  paths are component lists;
* `filepath` string functions are modelled over `String.data` character
  lists, assuming single-byte (ASCII) path characters, with `/` as the
  separator, matching Go path semantics on Unix.
-/

/-! ## Content sniffing

`getFileContentType` (src/downcan.go lines 118-137) opens the file, reads
into a 512-byte zero-initialized buffer, and calls
`net/http.DetectContentType` on the whole buffer. -/

def zipSignature : List Nat := [0x50, 0x4B, 0x03, 0x04]

/-- Whitespace bytes skipped by the Go sniffer before the text test. -/
def isSniffWS (b : Nat) : Bool :=
  b = 0x09 || b = 0x0A || b = 0x0C || b = 0x0D || b = 0x20

/-- Bytes that Go's text signature treats as binary. -/
def isBinaryByte (b : Nat) : Bool :=
  b ≤ 0x08 || b = 0x0B || (0x0E ≤ b && b ≤ 0x1A) || (0x1C ≤ b && b ≤ 0x1F)

/-- Modelled from Go `net/http.DetectContentType`, restricted to the facts
this program's decisions depend on: the input is truncated to 512 bytes; the
only signature in Go's table that yields `application/zip` is the exact
leading-byte signature `PK\x03\x04`, and no signature earlier in the table
can match data with that leading signature; data that is not ZIP is
classified `text/plain; charset=utf-8` when, after skipping leading sniff
whitespace, it contains no binary byte, and otherwise by one of the other
MIME strings, collapsed here to the `application/octet-stream` fallback. -/
def detectContentType (data : List Nat) : String :=
  let d := data.take 512
  if zipSignature.isPrefixOf d then "application/zip"
  else if (d.dropWhile isSniffWS).any isBinaryByte then "application/octet-stream"
  else "text/plain; charset=utf-8"

/-- The buffer seen by `DetectContentType`: `buffer := make([]byte, 512)` is
all zeros, and a single `file.Read(buffer)` overwrites its first
`min (length) 512` bytes with the file's leading bytes; the rest stays zero. -/
def readBuffer (bs : List Nat) : List Nat :=
  bs.take 512 ++ List.replicate (512 - min bs.length 512) 0

/-- Modelled from `getFileContentType` (lines 118-137). `content = none`
models an `os.Open` or read I/O failure. For an empty file the single
`file.Read` call returns `0, io.EOF`, which the code treats as an error and
propagates; otherwise `Read` returns the available bytes with a nil error
and the (zero-padded) buffer is classified. The subsequent `Seek(0, 0)`
cannot fail on a regular file and has no observable effect here. -/
def getFileContentType (content : Option (List Nat)) : Except String String :=
  match content with
  | none => .error "error opening or reading"
  | some bs =>
    if bs.length = 0 then .error "error reading: EOF"
    else .ok (detectContentType (readBuffer bs))

/-- The walk callback in `findZipFiles` (lines 100-107) logs a sniffing
error but keeps going with the zero-value string, so an errored file is
compared as the empty content type. -/
def sniffedType (content : Option (List Nat)) : String :=
  match getFileContentType content with
  | .error _ => ""
  | .ok ct => ct

/-! ## The scanned tree and `findZipFiles`

`findZipFiles` (lines 88-116) runs `filepath.Walk`: directories whose
entries cannot be enumerated make the callback receive a non-nil error,
which the callback returns, aborting the walk; directory entries themselves
are skipped; regular files are sniffed and collected when the content type
equals `application/zip`. Paths are modelled as component lists. -/

mutual
inductive FSNode where
  | file (content : Option (List Nat)) : FSNode
  | dir (readable : Bool) (entries : FSEntries) : FSNode
inductive FSEntries where
  | nil : FSEntries
  | cons (name : String) (node : FSNode) (rest : FSEntries) : FSEntries
end

mutual
def walkNode : List String → FSNode → Except String (List (List String))
  | path, .file content =>
    .ok (if sniffedType content = "application/zip" then [path] else [])
  | path, .dir readable entries =>
    if readable then walkEntries path entries
    else .error ("error walking " ++ String.intercalate "/" path)
def walkEntries : List String → FSEntries → Except String (List (List String))
  | _, .nil => .ok []
  | path, .cons name node rest =>
    match walkNode (path ++ [name]) node with
    | .error e => .error e
    | .ok xs =>
      match walkEntries path rest with
      | .error e => .error e
      | .ok ys => .ok (xs ++ ys)
end

def findZipFiles (directory : String) (tree : FSNode) :
    Except String (List (List String)) :=
  match walkNode [directory] tree with
  | .error e => .error ("error walking " ++ directory ++ ": " ++ e)
  | .ok zs => .ok zs

deriving instance DecidableEq for Except

/-! Spec-side collector, following the specification words: for each regular
file entry, if the content classification equals the canonical ZIP MIME
type, append the file's path; directories are descended without being
classified. Classification depends only on the file's content, never on its
name. -/

mutual
def specZipPaths : List String → FSNode → List (List String)
  | path, .file content =>
    if getFileContentType content = .ok "application/zip" then [path] else []
  | path, .dir _ entries => specZipPathsEntries path entries
def specZipPathsEntries : List String → FSEntries → List (List String)
  | _, .nil => []
  | path, .cons name node rest =>
    specZipPaths (path ++ [name]) node ++ specZipPathsEntries path rest
end

/-! `hasUnreadableDir`: the tree contains a directory whose entries cannot
be enumerated. -/

mutual
def hasUnreadableDir : FSNode → Bool
  | .file _ => false
  | .dir readable entries => !readable || hasUnreadableDirEntries entries
def hasUnreadableDirEntries : FSEntries → Bool
  | .nil => false
  | .cons _ node rest => hasUnreadableDir node || hasUnreadableDirEntries rest
end

def isErrE {α : Type} : Except String α → Bool
  | .error _ => true
  | .ok _ => false

/-! ## The filesystem state touched by the orchestrator and the extractor

Absolute paths are component lists (`[]` is the filesystem root, which
always exists as a directory). The state only ever grows: the program
creates directories and files and never removes anything. `os.Create` on an
existing file truncates it, modelled by consing a shadowing binding. -/

structure FS where
  dirs : List (List String)
  files : List (List String × List Nat)
deriving DecidableEq

def FS.isDir (fs : FS) (p : List String) : Prop :=
  p = [] ∨ p ∈ fs.dirs

instance (fs : FS) (p : List String) : Decidable (FS.isDir fs p) :=
  inferInstanceAs (Decidable (_ ∨ _))

def FS.isFile (fs : FS) (p : List String) : Prop :=
  p ∈ fs.files.map Prod.fst

instance (fs : FS) (p : List String) : Decidable (FS.isFile fs p) :=
  inferInstanceAs (Decidable (_ ∈ _))

/-- `os.Stat(p)` returns a nil error exactly when some object (directory or
regular file) exists at `p`. -/
def FS.statOk (fs : FS) (p : List String) : Prop :=
  FS.isDir fs p ∨ FS.isFile fs p

instance (fs : FS) (p : List String) : Decidable (FS.statOk fs p) :=
  inferInstanceAs (Decidable (_ ∨ _))

/-- The nonempty ancestors of `p`, from shortest to `p` itself. -/
def properPrefixes (p : List String) : List (List String) :=
  (List.range p.length).map (fun i => p.take (i + 1))

/-- `os.MkdirAll(p, perm)`: succeeds, creating every missing ancestor of
`p`, unless some ancestor of `p` (or `p` itself) exists as a regular file,
in which case it fails and changes nothing. Already existing directories
are left as they are (re-adding them keeps the directory set unchanged). -/
def FS.mkdirAll (fs : FS) (p : List String) : Option FS :=
  if ∃ q ∈ properPrefixes p, FS.isFile fs q then none
  else some ⟨properPrefixes p ++ fs.dirs, fs.files⟩

/-- `os.Create(p)`: fails when `p` is an existing directory or when the
parent of `p` does not exist as a directory; otherwise creates (or
truncates) the regular file at `p`. -/
def FS.create (fs : FS) (p : List String) (bs : List Nat) : Option FS :=
  if FS.isDir fs p then none
  else if FS.isDir fs p.dropLast then some ⟨fs.dirs, (p, bs) :: fs.files⟩
  else none

/-! ## The extractor (`extractZipFile`, lines 139-178)

One archive entry: `name` is the entry's relative name, already split into
components (the code computes `filepath.Join(destDir, file.Name)`);
`entryIsDir` is `file.FileInfo().IsDir()`; `openOk` models whether
`file.Open()` succeeds; `copyOk` models whether `io.Copy` completes, an
`io.Copy` failure being modelled as zero bytes written to the already
created output file (the code leaves an unspecified prefix on disk). -/

structure ZipEntry where
  name : List String
  entryIsDir : Bool
  openOk : Bool
  copyOk : Bool
  content : List Nat
deriving DecidableEq

/-- One iteration of the entry loop in `extractZipFile` (lines 146-175):
a directory entry is `MkdirAll`ed; a file entry is opened, created with
`os.Create` (no parent-directory creation happens for file entries), and
copied. The `Bool` is `false` when the iteration hit the error that makes
`extractZipFile` return. -/
def extractEntry (destDir : List String) (fs : FS) (e : ZipEntry) : FS × Bool :=
  let target := destDir ++ e.name
  if e.entryIsDir then
    match FS.mkdirAll fs target with
    | none => (fs, false)
    | some fs2 => (fs2, true)
  else if e.openOk then
    match FS.create fs target (if e.copyOk then e.content else []) with
    | none => (fs, false)
    | some fs2 => (fs2, e.copyOk)
  else (fs, false)

/-- The entry loop: stops at the first failing entry, keeping everything
already written (no rollback). -/
def extractEntries (destDir : List String) : FS → List ZipEntry → FS × Bool
  | fs, [] => (fs, true)
  | fs, e :: rest =>
    match extractEntry destDir fs e with
    | (fs2, true) => extractEntries destDir fs2 rest
    | (fs2, false) => (fs2, false)

/-! ## The orchestrator (`run`, lines 50-86, and `Execute`, lines 22-43)

One discovered archive carries its already computed destination directory
and the outcome of `zip.OpenReader`: `none` models an unopenable/corrupt
archive, `some es` its entry list. The scan outcome (`findZipFiles`
together with the per-archive destination derivation and archive opening,
which live at the string/byte layer above) is passed in as a value. -/

structure Archive where
  destDir : List String
  entries : Option (List ZipEntry)
deriving DecidableEq

/-- One iteration of the archive loop in `run` (lines 64-83): skip when
`os.Stat` finds anything at the destination; otherwise `MkdirAll` the
destination (on failure log and continue); otherwise extract (on failure
log and continue). Every branch proceeds to the next archive. -/
def runStep (fs : FS) (a : Archive) : FS :=
  if FS.statOk fs a.destDir then fs
  else
    match FS.mkdirAll fs a.destDir with
    | none => fs
    | some fs2 =>
      match a.entries with
      | none => fs2
      | some es => (extractEntries a.destDir fs2 es).1

/-- `run` (lines 50-86): missing data directory is an error; a scan error
is an error; otherwise the archive loop runs over the whole list and `run`
returns nil regardless of per-archive outcomes. -/
def run (dataDirectory : String) (scanResult : Except String (List Archive))
    (fs : FS) : FS × Except String Unit :=
  if dataDirectory = "" then
    (fs, .error "please provide a data directory using the --data-dir flag")
  else
    match scanResult with
    | .error e => (fs, .error ("error finding zip files: " ++ e))
    | .ok archives => (archives.foldl runStep fs, .ok ())

/-- `Execute` (lines 22-43): exit code 1 when flag parsing, log-level
setup, logger setup, or `run` fails; 0 otherwise. -/
def Execute (parseOk setLevelOk setupOk : Bool)
    (runResult : Except String Unit) : Nat :=
  if !parseOk then 1
  else if !setLevelOk then 1
  else if !setupOk then 1
  else
    match runResult with
    | .error _ => 1
    | .ok _ => 0

/-! ## Path strings (`getExpandedPath`, lines 180-185)

`filepath.Dir`, `filepath.Base` and `filepath.Join` are modelled from Go
`path/filepath` (Unix rules) over `String.data` character lists.
`filepath.Clean` is implemented component-wise: split on the separator,
drop empty and `.` segments, resolve `..` against preceding segments
(keeping leading `..` for relative paths, dropping it at the root for
rooted paths), and rejoin. -/

/-- Split on the path separator, like Go `strings.Split(s, "/")`. -/
def splitSlash : List Char → List (List Char)
  | [] => [[]]
  | c :: rest =>
    match splitSlash rest with
    | [] => [[c]]
    | h :: t => if c = '/' then [] :: h :: t else (c :: h) :: t

/-- One step of `filepath.Clean`'s element processing, on a reversed stack
of kept segments. -/
def cleanStep (rooted : Bool) (acc : List (List Char)) (seg : List Char) :
    List (List Char) :=
  if seg = [] ∨ seg = ['.'] then acc
  else if seg = ['.', '.'] then
    match acc with
    | [] => if rooted then [] else [['.', '.']]
    | a :: rest => if a = ['.', '.'] then seg :: a :: rest else rest
  else seg :: acc

/-- `filepath.Clean` on Unix: empty cleans to `.`; the result keeps a
leading separator exactly for rooted inputs; an empty relative result is
`.`. -/
def cleanChars (p : List Char) : List Char :=
  if p = [] then ['.']
  else
    let rooted := p.head? = some '/'
    let segs := ((splitSlash p).foldl (cleanStep rooted) []).reverse
    let body := List.intercalate ['/'] segs
    if rooted then '/' :: body
    else if body = [] then ['.'] else body

/-- `filepath.Base` on Unix: empty gives `.`; a path of separators only
gives `/`; otherwise the last nonempty component. -/
def baseChars (p : List Char) : List Char :=
  if p = [] then ['.']
  else
    match ((splitSlash p).filter (fun s => s ≠ [])).getLast? with
    | some b => b
    | none => ['/']

/-- `filepath.Dir` on Unix: everything up to and including the final
separator (empty when there is none), cleaned. -/
def dirChars (p : List Char) : List Char :=
  let comps := splitSlash p
  if comps.length ≤ 1 then cleanChars []
  else cleanChars (List.intercalate ['/'] comps.dropLast ++ ['/'])

/-- `filepath.Join` on Unix: drop empty elements, join with the separator,
clean; all-empty joins to the empty string. -/
def joinChars (elems : List (List Char)) : List Char :=
  match elems.filter (fun s => s ≠ []) with
  | [] => []
  | ne => cleanChars (List.intercalate ['/'] ne)

def filepathBase (p : String) : String := ⟨baseChars p.data⟩

def filepathDir (p : String) : String := ⟨dirChars p.data⟩

def filepathJoin (elems : List String) : String :=
  ⟨joinChars (elems.map String.data)⟩

/-- Go string slicing `s[:j]`: defined only for `0 ≤ j ≤ len(s)`; outside
that range the program panics, modelled as `none`. -/
def goSliceTo (s : String) (j : Int) : Option String :=
  if 0 ≤ j ∧ j.toNat ≤ s.data.length then some ⟨s.data.take j.toNat⟩ else none

/-- `getExpandedPath` (lines 180-185): joins the archive's parent
directory, `expanded`, and the base name with its last four characters
sliced off; the slice panics (`none`) when the base name is shorter than
four characters. -/
def getExpandedPath (zipFilePath : String) : Option String :=
  let baseDir := filepathDir zipFilePath
  let zipFileName := filepathBase zipFilePath
  match goSliceTo zipFileName ((zipFileName.data.length : Int) - 4) with
  | none => none
  | some stem => some (filepathJoin [baseDir, "expanded", stem])

/-- Spec-side suffix predicate: the base name ends in `.zip`. -/
def endsWithDotZip (b : String) : Prop :=
  4 ≤ b.data.length ∧ b.data.drop (b.data.length - 4) = ".zip".data

instance (b : String) : Decidable (endsWithDotZip b) :=
  inferInstanceAs (Decidable (_ ∧ _))

/-- Spec-side: a name with its `.zip` suffix stripped (unchanged when the
suffix is absent). -/
def stripDotZip (b : String) : String :=
  if endsWithDotZip b then ⟨b.data.take (b.data.length - 4)⟩ else b

/-! ## Helper lemmas: the walk -/

theorem sniffedType_eq_zip (c : Option (List Nat)) :
    sniffedType c = "application/zip" ↔
      getFileContentType c = .ok "application/zip" := by
  unfold sniffedType
  cases h : getFileContentType c with
  | error e => simp [show ("" : String) ≠ "application/zip" by decide]
  | ok ct => simp

mutual
theorem walkNode_ok_spec : ∀ (path : List String) (tree : FSNode)
    (res : List (List String)), walkNode path tree = .ok res →
    res = specZipPaths path tree
  | path, .file c, res, h => by
    simp only [walkNode, Except.ok.injEq] at h
    subst h
    simp only [specZipPaths]
    by_cases hc : getFileContentType c = Except.ok "application/zip"
    · rw [if_pos ((sniffedType_eq_zip c).mpr hc), if_pos hc]
    · rw [if_neg (fun hs => hc ((sniffedType_eq_zip c).mp hs)), if_neg hc]
  | path, .dir readable entries, res, h => by
    cases readable with
    | false => simp [walkNode] at h
    | true =>
      simp only [walkNode, if_true] at h
      simp only [specZipPaths]
      exact walkEntries_ok_spec path entries res h
theorem walkEntries_ok_spec : ∀ (path : List String) (es : FSEntries)
    (res : List (List String)), walkEntries path es = .ok res →
    res = specZipPathsEntries path es
  | path, .nil, res, h => by
    simp only [walkEntries, Except.ok.injEq] at h
    subst h
    rfl
  | path, .cons name node rest, res, h => by
    rw [walkEntries] at h
    cases hw : walkNode (path ++ [name]) node with
    | error e => rw [hw] at h; exact absurd h (by simp)
    | ok xs =>
      rw [hw] at h
      cases hr : walkEntries path rest with
      | error e => rw [hr] at h; exact absurd h (by simp)
      | ok ys =>
        rw [hr] at h
        simp only [Except.ok.injEq] at h
        subst h
        simp only [specZipPathsEntries]
        rw [← walkNode_ok_spec (path ++ [name]) node xs hw,
          ← walkEntries_ok_spec path rest ys hr]
end

mutual
theorem isErrE_walkNode : ∀ (path : List String) (tree : FSNode),
    isErrE (walkNode path tree) = hasUnreadableDir tree
  | path, .file c => by simp [walkNode, hasUnreadableDir, isErrE]
  | path, .dir readable entries => by
    cases readable with
    | false => simp [walkNode, hasUnreadableDir, isErrE]
    | true =>
      simp only [walkNode, if_true, hasUnreadableDir, Bool.not_true,
        Bool.false_or]
      exact isErrE_walkEntries path entries
theorem isErrE_walkEntries : ∀ (path : List String) (es : FSEntries),
    isErrE (walkEntries path es) = hasUnreadableDirEntries es
  | path, .nil => by simp [walkEntries, hasUnreadableDirEntries, isErrE]
  | path, .cons name node rest => by
    have h1 := isErrE_walkNode (path ++ [name]) node
    have h2 := isErrE_walkEntries path rest
    rw [walkEntries]
    cases hw : walkNode (path ++ [name]) node with
    | error e =>
      rw [hw] at h1
      simp only [isErrE] at h1 ⊢
      simp [hasUnreadableDirEntries, ← h1]
    | ok xs =>
      rw [hw] at h1
      cases hr : walkEntries path rest with
      | error e =>
        rw [hr] at h2
        simp only [isErrE] at h1 h2 ⊢
        simp [hasUnreadableDirEntries, ← h1, ← h2]
      | ok ys =>
        rw [hr] at h2
        simp only [isErrE] at h1 h2 ⊢
        simp [hasUnreadableDirEntries, ← h1, ← h2]
end

/-! ## Helper lemmas: the filesystem state only grows -/

theorem mkdirAll_eq_some {fs fs2 : FS} {p : List String}
    (h : FS.mkdirAll fs p = some fs2) :
    fs2 = ⟨properPrefixes p ++ fs.dirs, fs.files⟩ := by
  unfold FS.mkdirAll at h
  split at h
  · exact absurd h (by simp)
  · exact (Option.some.injEq _ _ ▸ h).symm

theorem mkdirAll_none {fs : FS} {p : List String}
    (h : FS.mkdirAll fs p = none) :
    ∃ q ∈ properPrefixes p, FS.isFile fs q := by
  unfold FS.mkdirAll at h
  split at h
  · assumption
  · exact absurd h (by simp)

theorem mkdirAll_none_of {fs : FS} {p : List String}
    (h : ∃ q ∈ properPrefixes p, FS.isFile fs q) : FS.mkdirAll fs p = none := by
  unfold FS.mkdirAll
  rw [if_pos h]

theorem create_eq_some {fs fs2 : FS} {p : List String} {bs : List Nat}
    (h : FS.create fs p bs = some fs2) :
    fs2 = ⟨fs.dirs, (p, bs) :: fs.files⟩ := by
  unfold FS.create at h
  split at h
  · exact absurd h (by simp)
  · split at h
    · exact (Option.some.injEq _ _ ▸ h).symm
    · exact absurd h (by simp)

theorem self_mem_properPrefixes {p : List String} (hp : p ≠ []) :
    p ∈ properPrefixes p := by
  unfold properPrefixes
  have hl : 0 < p.length := List.length_pos.mpr hp
  refine List.mem_map.mpr ⟨p.length - 1, List.mem_range.mpr (by omega), ?_⟩
  have : p.length - 1 + 1 = p.length := by omega
  rw [this, List.take_length]

theorem isDir_mkdirAll {fs fs2 : FS} {p q : List String}
    (hm : FS.mkdirAll fs p = some fs2) (h : FS.isDir fs q) : FS.isDir fs2 q := by
  rw [mkdirAll_eq_some hm]
  rcases h with h | h
  · exact Or.inl h
  · exact Or.inr (List.mem_append_right _ h)

theorem isFile_mkdirAll {fs fs2 : FS} {p q : List String}
    (hm : FS.mkdirAll fs p = some fs2) (h : FS.isFile fs q) : FS.isFile fs2 q := by
  rw [mkdirAll_eq_some hm]
  exact h

theorem isDir_mkdirAll_self {fs fs2 : FS} {p : List String} (hp : p ≠ [])
    (hm : FS.mkdirAll fs p = some fs2) : FS.isDir fs2 p := by
  rw [mkdirAll_eq_some hm]
  exact Or.inr (List.mem_append_left _ (self_mem_properPrefixes hp))

theorem isDir_create {fs fs2 : FS} {p q : List String} {bs : List Nat}
    (hc : FS.create fs p bs = some fs2) (h : FS.isDir fs q) : FS.isDir fs2 q := by
  rw [create_eq_some hc]
  exact h

theorem isFile_create {fs fs2 : FS} {p q : List String} {bs : List Nat}
    (hc : FS.create fs p bs = some fs2) (h : FS.isFile fs q) : FS.isFile fs2 q := by
  rw [create_eq_some hc]
  unfold FS.isFile at h ⊢
  simp only [List.map_cons]
  exact List.mem_cons_of_mem _ h

theorem extractEntry_isDir_mono (d : List String) (fs : FS) (e : ZipEntry)
    {q : List String} (h : FS.isDir fs q) : FS.isDir (extractEntry d fs e).1 q := by
  unfold extractEntry
  by_cases hd : e.entryIsDir = true
  · rw [if_pos hd]
    cases hm : FS.mkdirAll fs (d ++ e.name) with
    | none => exact h
    | some fs2 => exact isDir_mkdirAll hm h
  · rw [if_neg hd]
    by_cases ho : e.openOk = true
    · rw [if_pos ho]
      cases hc : FS.create fs (d ++ e.name) (if e.copyOk then e.content else []) with
      | none => exact h
      | some fs2 => exact isDir_create hc h
    · rw [if_neg ho]
      exact h

theorem extractEntry_isFile_mono (d : List String) (fs : FS) (e : ZipEntry)
    {q : List String} (h : FS.isFile fs q) : FS.isFile (extractEntry d fs e).1 q := by
  unfold extractEntry
  by_cases hd : e.entryIsDir = true
  · rw [if_pos hd]
    cases hm : FS.mkdirAll fs (d ++ e.name) with
    | none => exact h
    | some fs2 => exact isFile_mkdirAll hm h
  · rw [if_neg hd]
    by_cases ho : e.openOk = true
    · rw [if_pos ho]
      cases hc : FS.create fs (d ++ e.name) (if e.copyOk then e.content else []) with
      | none => exact h
      | some fs2 => exact isFile_create hc h
    · rw [if_neg ho]
      exact h

theorem extractEntries_isDir_mono (d : List String) (es : List ZipEntry) :
    ∀ (fs : FS) (q : List String), FS.isDir fs q →
      FS.isDir (extractEntries d fs es).1 q := by
  induction es with
  | nil => intro fs q h; exact h
  | cons e rest ih =>
    intro fs q h
    rw [extractEntries]
    have h2 : FS.isDir (extractEntry d fs e).1 q := extractEntry_isDir_mono d fs e h
    cases hx : extractEntry d fs e with
    | mk fs2 ok =>
      rw [hx] at h2
      cases ok with
      | true => exact ih fs2 q h2
      | false => exact h2

theorem extractEntries_isFile_mono (d : List String) (es : List ZipEntry) :
    ∀ (fs : FS) (q : List String), FS.isFile fs q →
      FS.isFile (extractEntries d fs es).1 q := by
  induction es with
  | nil => intro fs q h; exact h
  | cons e rest ih =>
    intro fs q h
    rw [extractEntries]
    have h2 : FS.isFile (extractEntry d fs e).1 q := extractEntry_isFile_mono d fs e h
    cases hx : extractEntry d fs e with
    | mk fs2 ok =>
      rw [hx] at h2
      cases ok with
      | true => exact ih fs2 q h2
      | false => exact h2

theorem runStep_isDir_mono (fs : FS) (a : Archive) {q : List String}
    (h : FS.isDir fs q) : FS.isDir (runStep fs a) q := by
  unfold runStep
  by_cases hs : FS.statOk fs a.destDir
  · rw [if_pos hs]; exact h
  · rw [if_neg hs]
    cases hm : FS.mkdirAll fs a.destDir with
    | none => exact h
    | some fs2 =>
      have h2 := isDir_mkdirAll hm h
      cases a.entries with
      | none => exact h2
      | some es => exact extractEntries_isDir_mono a.destDir es fs2 q h2

theorem runStep_isFile_mono (fs : FS) (a : Archive) {q : List String}
    (h : FS.isFile fs q) : FS.isFile (runStep fs a) q := by
  unfold runStep
  by_cases hs : FS.statOk fs a.destDir
  · rw [if_pos hs]; exact h
  · rw [if_neg hs]
    cases hm : FS.mkdirAll fs a.destDir with
    | none => exact h
    | some fs2 =>
      have h2 := isFile_mkdirAll hm h
      cases a.entries with
      | none => exact h2
      | some es => exact extractEntries_isFile_mono a.destDir es fs2 q h2

/-! ## Helper lemmas: an archive, once processed, stays settled -/

/-- After the archive loop has looked at an archive once, either something
exists at its destination, or some ancestor of the destination is a regular
file (so `MkdirAll` keeps failing). Either way a later iteration does
nothing for it. -/
def blockedOrDone (fs : FS) (a : Archive) : Prop :=
  FS.statOk fs a.destDir ∨ ∃ q ∈ properPrefixes a.destDir, FS.isFile fs q

theorem runStep_of_blocked {fs : FS} {a : Archive} (h : blockedOrDone fs a) :
    runStep fs a = fs := by
  rcases h with h | h
  · unfold runStep; rw [if_pos h]
  · unfold runStep
    by_cases hs : FS.statOk fs a.destDir
    · rw [if_pos hs]
    · rw [if_neg hs, mkdirAll_none_of h]

theorem blocked_after_runStep (fs : FS) (a : Archive) :
    blockedOrDone (runStep fs a) a := by
  by_cases hs : FS.statOk fs a.destDir
  · left
    unfold runStep
    rw [if_pos hs]
    exact hs
  · unfold runStep
    rw [if_neg hs]
    cases hm : FS.mkdirAll fs a.destDir with
    | none => right; exact mkdirAll_none hm
    | some fs2 =>
      have hne : a.destDir ≠ [] := by
        intro he
        exact hs (Or.inl (Or.inl he))
      have hd : FS.isDir fs2 a.destDir := isDir_mkdirAll_self hne hm
      cases a.entries with
      | none => exact Or.inl (Or.inl hd)
      | some es =>
        exact Or.inl (Or.inl (extractEntries_isDir_mono a.destDir es fs2 _ hd))

theorem blocked_mono {fs : FS} {a : Archive} (h : blockedOrDone fs a)
    (b : Archive) : blockedOrDone (runStep fs b) a := by
  rcases h with h | ⟨q, hq, hf⟩
  · left
    rcases h with h | h
    · exact Or.inl (runStep_isDir_mono fs b h)
    · exact Or.inr (runStep_isFile_mono fs b h)
  · right
    exact ⟨q, hq, runStep_isFile_mono fs b hf⟩

theorem blocked_foldl {a : Archive} :
    ∀ (as : List Archive) (fs : FS), blockedOrDone fs a →
      blockedOrDone (as.foldl runStep fs) a := by
  intro as
  induction as with
  | nil => intro fs h; exact h
  | cons b rest ih =>
    intro fs h
    rw [List.foldl_cons]
    exact ih _ (blocked_mono h b)

theorem blocked_after_foldl :
    ∀ (as : List Archive) (fs : FS) (a : Archive), a ∈ as →
      blockedOrDone (as.foldl runStep fs) a := by
  intro as
  induction as with
  | nil => intro fs a h; cases h
  | cons b rest ih =>
    intro fs a h
    rw [List.foldl_cons]
    rcases List.mem_cons.mp h with rfl | h2
    · exact blocked_foldl rest _ (blocked_after_runStep fs a)
    · exact ih _ _ h2

theorem foldl_runStep_fix :
    ∀ (as : List Archive) (fs : FS), (∀ a ∈ as, runStep fs a = fs) →
      as.foldl runStep fs = fs := by
  intro as
  induction as with
  | nil => intro fs _; rfl
  | cons b rest ih =>
    intro fs h
    rw [List.foldl_cons, h b (List.mem_cons_self b rest)]
    exact ih fs (fun a ha => h a (List.mem_cons_of_mem _ ha))

/-! ## Claim theorems -/

/-- Claim C1 counterexample: with the destination directory existing and
empty, an archive whose file entry `a/b.txt` precedes the directory marker
`a/` fails to extract (the code never creates a file entry's parent
directory), while the same entries in the opposite order extract fully: the
extractor does not ensure the parent directory exists, and the produced
tree depends on entry order, contrary to the claim. -/
theorem C1_order_dependence_refuted :
    extractEntries ["D"] ⟨[["D"]], []⟩
        [⟨["a", "b.txt"], false, true, true, [104]⟩,
          ⟨["a"], true, true, true, []⟩] = (⟨[["D"]], []⟩, false) ∧
      extractEntries ["D"] ⟨[["D"]], []⟩
        [⟨["a"], true, true, true, []⟩,
          ⟨["a", "b.txt"], false, true, true, [104]⟩] =
        (⟨[["D"], ["D", "a"], ["D"]], [(["D", "a", "b.txt"], [104])]⟩, true) :=
  ⟨rfl, rfl⟩

/-- Claim C1 as amended: the extractor does not create a missing parent
directory for a file entry; a file entry whose parent directory does not
exist at that point makes its loop iteration fail with the filesystem
unchanged, so extraction succeeds only when each file entry's parent
already exists (the destination root or a directory created earlier). -/
theorem C1_no_parent_dir_creation (destDir : List String) (fs : FS)
    (e : ZipEntry) (hfile : e.entryIsDir = false)
    (hpar : ¬ FS.isDir fs (destDir ++ e.name).dropLast) :
    extractEntry destDir fs e = (fs, false) := by
  unfold extractEntry
  simp only [hfile, Bool.false_eq_true, if_false]
  by_cases ho : e.openOk = true
  · simp only [ho, if_true]
    cases hc : FS.create fs (destDir ++ e.name)
        (if e.copyOk then e.content else []) with
    | none => rfl
    | some fs2 =>
      exfalso
      apply hpar
      unfold FS.create at hc
      by_cases h1 : FS.isDir fs (destDir ++ e.name)
      · rw [if_pos h1] at hc
        exact absurd hc (by simp)
      · rw [if_neg h1] at hc
        by_cases h2 : FS.isDir fs (destDir ++ e.name).dropLast
        · exact h2
        · rw [if_neg h2] at hc
          exact absurd hc (by simp)
  · rw [if_neg ho]

/-- Claim C1 amended, witness: a lone file entry `a/b.txt` with target
parent `D/a` absent fails and changes nothing. -/
theorem C1_no_parent_dir_creation_witness :
    (⟨["a", "b.txt"], false, true, true, [104]⟩ : ZipEntry).entryIsDir = false ∧
      ¬ FS.isDir ⟨[["D"]], []⟩ ((["D"] ++ ["a", "b.txt"]).dropLast) ∧
      extractEntry ["D"] ⟨[["D"]], []⟩
        ⟨["a", "b.txt"], false, true, true, [104]⟩ = (⟨[["D"]], []⟩, false) :=
  ⟨rfl, by decide,
    C1_no_parent_dir_creation ["D"] ⟨[["D"]], []⟩
      ⟨["a", "b.txt"], false, true, true, [104]⟩ rfl (by decide)⟩

/-- Claim C2: an archive whose destination already exists as a directory at
check time is skipped with the filesystem unchanged, and a whole second run
of the archive loop over the same list changes nothing (idempotence by
presence). -/
theorem C2_skip_existing_destination :
    (∀ (fs : FS) (a : Archive), FS.isDir fs a.destDir → runStep fs a = fs) ∧
      ∀ (d : String) (as : List Archive) (fs : FS),
        (run d (.ok as) ((run d (.ok as) fs).1)).1 = (run d (.ok as) fs).1 := by
  constructor
  · intro fs a h
    exact runStep_of_blocked (Or.inl (Or.inl h))
  · intro d as fs
    by_cases hd : d = ""
    · simp [run, hd]
    · simp only [run, if_neg hd]
      exact foldl_runStep_fix as _ (fun a ha =>
        runStep_of_blocked (blocked_after_foldl as fs a ha))

/-- Claim C2, witness: the destination `foo/expanded/bar` exists as a
directory, so the archive is skipped and the state is unchanged. -/
theorem C2_skip_existing_destination_witness :
    FS.isDir ⟨[["foo", "expanded", "bar"]], []⟩ ["foo", "expanded", "bar"] ∧
      runStep ⟨[["foo", "expanded", "bar"]], []⟩
        ⟨["foo", "expanded", "bar"],
          some [⟨["x.txt"], false, true, true, [1]⟩]⟩ =
        ⟨[["foo", "expanded", "bar"]], []⟩ :=
  ⟨by decide,
    C2_skip_existing_destination.1 ⟨[["foo", "expanded", "bar"]], []⟩
      ⟨["foo", "expanded", "bar"], some [⟨["x.txt"], false, true, true, [1]⟩]⟩
      (by decide)⟩

/-- Claim C3: when the data directory is given and the scan succeeds, `run`
returns success and the process exit status is zero, whatever the archives
and the filesystem state (so however many per-archive failures occur), and
the loop always proceeds from one archive to the rest of the list. -/
theorem C3_run_succeeds_despite_failures (d : String) (as : List Archive)
    (fs : FS) (hd : d ≠ "") :
    (run d (.ok as) fs).2 = .ok () ∧
      Execute true true true (run d (.ok as) fs).2 = 0 ∧
      ∀ (a : Archive) (rest : List Archive),
        (run d (.ok (a :: rest)) fs).1 = (run d (.ok rest) (runStep fs a)).1 := by
  refine ⟨?_, ?_, ?_⟩
  · simp [run, if_neg hd]
  · simp [run, Execute, if_neg hd]
  · intro a rest
    simp [run, if_neg hd, List.foldl_cons]

/-- Claim C3, witness: a run over one archive whose extraction fails (its
entry cannot be opened) still ends with success and exit code zero. -/
theorem C3_run_succeeds_despite_failures_witness :
    ("/data" : String) ≠ "" ∧
      (run "/data" (.ok [⟨["d"], some [⟨["x"], false, false, true, []⟩]⟩])
        ⟨[], []⟩).2 = .ok () :=
  ⟨by decide,
    (C3_run_succeeds_despite_failures "/data"
      [⟨["d"], some [⟨["x"], false, false, true, []⟩]⟩] ⟨[], []⟩ (by decide)).1⟩

/-- Claim C4: whenever the scan succeeds, its candidate list is exactly the
spec-side collection of the paths of regular files whose content
classification is `application/zip`; the collector looks only at file
content, so a ZIP-content `data.bin` is included and a plain-text
`archive.zip` is excluded. -/
theorem C4_content_based_selection (directory : String) (tree : FSNode)
    (res : List (List String)) (h : findZipFiles directory tree = .ok res) :
    res = specZipPaths [directory] tree := by
  unfold findZipFiles at h
  cases hw : walkNode [directory] tree with
  | error e =>
    rw [hw] at h
    exact absurd h (by simp)
  | ok zs =>
    rw [hw] at h
    simp only [Except.ok.injEq] at h
    subst h
    exact walkNode_ok_spec _ _ _ hw

/-- Claim C4, witness: a tree holding `data.bin` with ZIP leading bytes and
`archive.zip` with plain-text bytes scans to exactly the `data.bin` path. -/
theorem C4_content_based_selection_witness :
    findZipFiles "r"
        (.dir true (.cons "data.bin" (.file (some [0x50, 0x4B, 0x03, 0x04]))
          (.cons "archive.zip" (.file (some [104, 101, 108, 108, 111]))
            .nil))) = .ok [["r", "data.bin"]] ∧
      [["r", "data.bin"]] = specZipPaths ["r"]
        (.dir true (.cons "data.bin" (.file (some [0x50, 0x4B, 0x03, 0x04]))
          (.cons "archive.zip" (.file (some [104, 101, 108, 108, 111]))
            .nil))) :=
  ⟨rfl, C4_content_based_selection "r" _ [["r", "data.bin"]] rfl⟩

/-- Claim C5: for any archive path whose base name ends in `.zip`, the
destination resolver returns (without panicking) exactly the join of the
parent directory, the fixed subdirectory `expanded`, and the base name with
the `.zip` suffix stripped. -/
theorem C5_expanded_path_formula (p : String)
    (h : endsWithDotZip (filepathBase p)) :
    getExpandedPath p =
      some (filepathJoin
        [filepathDir p, "expanded", stripDotZip (filepathBase p)]) := by
  obtain ⟨h4, hsuf⟩ := h
  have ht : (((filepathBase p).data.length : Int) - 4).toNat
      = (filepathBase p).data.length - 4 := by omega
  have hcond : (0 : Int) ≤ ((filepathBase p).data.length : Int) - 4 ∧
      (((filepathBase p).data.length : Int) - 4).toNat
        ≤ (filepathBase p).data.length := by
    constructor
    · omega
    · rw [ht]; omega
  have hslice : goSliceTo (filepathBase p)
      (((filepathBase p).data.length : Int) - 4)
      = some ⟨(filepathBase p).data.take ((filepathBase p).data.length - 4)⟩ := by
    unfold goSliceTo
    rw [if_pos hcond, ht]
  have hstrip : stripDotZip (filepathBase p)
      = ⟨(filepathBase p).data.take ((filepathBase p).data.length - 4)⟩ := by
    unfold stripDotZip
    rw [if_pos ⟨h4, hsuf⟩]
  unfold getExpandedPath
  simp only [hslice, hstrip]

/-- Claim C5, witness: `foo/bar.zip` resolves to `foo/expanded/bar`. -/
theorem C5_expanded_path_formula_witness :
    endsWithDotZip (filepathBase "foo/bar.zip") ∧
      getExpandedPath "foo/bar.zip" = some "foo/expanded/bar" :=
  ⟨by decide,
    (C5_expanded_path_formula "foo/bar.zip" (by decide)).trans (by decide)⟩

/-- Claim C6 counterexample: for an empty (readable) file the code does not
return a classification string; the single `file.Read` returns `io.EOF`
and `getFileContentType` propagates it as an error, contrary to the claim
that an error arises only when the file cannot be opened or read. -/
theorem C6_empty_file_error :
    getFileContentType (some []) = .error "error reading: EOF" := rfl

/-- Claim C6 as amended: classification always uses the full 512-byte
zero-initialized buffer, so a file shorter than 512 bytes is classified
with its content zero-padded to 512 bytes (which can change the
classification, as the two-byte text file shows); an empty file makes the
read return `io.EOF`, which is propagated as an error, as are open and
read failures. -/
theorem C6_buffer_and_error_semantics :
    (∀ bs : List Nat, 512 ≤ bs.length →
        getFileContentType (some bs) = .ok (detectContentType (bs.take 512))) ∧
      getFileContentType (some [104, 105]) = .ok "application/octet-stream" ∧
      detectContentType [104, 105] = "text/plain; charset=utf-8" ∧
      getFileContentType none = .error "error opening or reading" ∧
      isErrE (getFileContentType (some [])) = true := by
  refine ⟨?_, rfl, rfl, rfl, rfl⟩
  intro bs h
  have hlen : ¬ bs.length = 0 := by omega
  have hbuf : readBuffer bs = bs.take 512 := by
    unfold readBuffer
    have hmin : min bs.length 512 = 512 := by omega
    rw [hmin, Nat.sub_self]
    simp
  simp only [getFileContentType, if_neg hlen, hbuf]

/-- Claim C6 amended, witness: a 512-byte file is classified from exactly
its first 512 bytes. -/
theorem C6_buffer_and_error_semantics_witness :
    512 ≤ (List.replicate 512 (80 : Nat)).length ∧
      getFileContentType (some (List.replicate 512 (80 : Nat))) =
        .ok (detectContentType ((List.replicate 512 (80 : Nat)).take 512)) :=
  ⟨by simp, C6_buffer_and_error_semantics.1 (List.replicate 512 80) (by simp)⟩

/-- Claim C7: a per-file sniffing failure leaves the walk running with that
file excluded from the results; the scan fails exactly when some
directory's entries cannot be enumerated; and when the scan fails, `run`
fails with the wrapped error and the filesystem is untouched, so no
extraction is attempted for any archive. -/
theorem C7_scan_error_semantics :
    (∀ (directory : String) (tree : FSNode),
        isErrE (findZipFiles directory tree) = hasUnreadableDir tree) ∧
      (∀ (path : List String) (name : String) (rest : FSEntries),
        walkEntries path (.cons name (.file none) rest) =
          walkEntries path rest) ∧
      ∀ (d e : String) (fs : FS), d ≠ "" →
        run d (.error e) fs =
          (fs, .error ("error finding zip files: " ++ e)) := by
  refine ⟨?_, ?_, ?_⟩
  · intro d tree
    have h := isErrE_walkNode [d] tree
    unfold findZipFiles
    cases hw : walkNode [d] tree with
    | error e =>
      rw [hw] at h
      simpa [isErrE] using h
    | ok zs =>
      rw [hw] at h
      simpa [isErrE] using h
  · intro path name rest
    have hfile : walkNode (path ++ [name]) (.file none) = .ok [] := rfl
    rw [walkEntries, hfile]
    cases hr : walkEntries path rest with
    | error e => rfl
    | ok ys => simp
  · intro d e fs hd
    unfold run
    rw [if_neg hd]

/-- Claim C7, witness: a failed scan makes the run fail with the state
untouched. -/
theorem C7_scan_error_semantics_witness :
    ("/data" : String) ≠ "" ∧
      run "/data" (.error "boom") ⟨[], []⟩ =
        (⟨[], []⟩, .error "error finding zip files: boom") :=
  ⟨by decide, C7_scan_error_semantics.2.2 "/data" "boom" ⟨[], []⟩ (by decide)⟩

/-- Claim C8: destination resolution is not total: whenever the base name
of the input path has fewer than four characters, the slice
`zipFileName[:len-4]` has a negative bound and `getExpandedPath` panics
(modelled as `none`) instead of returning a destination. -/
theorem C8_short_base_name_panics (p : String)
    (h : (filepathBase p).data.length < 4) : getExpandedPath p = none := by
  have hcond : ¬ ((0 : Int) ≤ ((filepathBase p).data.length : Int) - 4 ∧
      (((filepathBase p).data.length : Int) - 4).toNat
        ≤ (filepathBase p).data.length) := by
    intro hc
    rcases hc with ⟨hc1, _⟩
    omega
  have hslice : goSliceTo (filepathBase p)
      (((filepathBase p).data.length : Int) - 4) = none := by
    unfold goSliceTo
    rw [if_neg hcond]
  unfold getExpandedPath
  simp only [hslice]

/-- Claim C8, witness: the path `a/b` has base name `b`, shorter than four
characters, so resolution panics. -/
theorem C8_short_base_name_panics_witness :
    (filepathBase "a/b").data.length < 4 ∧ getExpandedPath "a/b" = none :=
  ⟨by decide, C8_short_base_name_panics "a/b" (by decide)⟩

/-- Claim C9: the skip check is `os.Stat` succeeding, so an archive whose
destination path exists as a regular file (not only as a directory) is
skipped: no directory creation, no extraction, state unchanged. -/
theorem C9_skip_any_existing_object (fs : FS) (a : Archive)
    (h : FS.isFile fs a.destDir) : runStep fs a = fs :=
  runStep_of_blocked (Or.inl (Or.inr h))

/-- Claim C9, witness: the destination `d` exists as a regular file and the
archive is skipped unchanged. -/
theorem C9_skip_any_existing_object_witness :
    FS.isFile ⟨[], [(["d"], [1])]⟩ ["d"] ∧
      runStep ⟨[], [(["d"], [1])]⟩
        ⟨["d"], some [⟨["x.txt"], false, true, true, [2]⟩]⟩ =
        ⟨[], [(["d"], [1])]⟩ :=
  ⟨by decide,
    C9_skip_any_existing_object ⟨[], [(["d"], [1])]⟩
      ⟨["d"], some [⟨["x.txt"], false, true, true, [2]⟩]⟩ (by decide)⟩

/-- Claim C10: when nothing exists at the destination, directory creation
succeeds, and extraction then fails, the loop iteration ends in the failed
extraction state, the destination directory (with whatever was partially
written) remains on disk, and a later iteration over the same archive is
skipped by the existence check, so extraction is never retried. -/
theorem C10_failed_extraction_never_retried (fs fs2 fsE : FS) (a : Archive)
    (es : List ZipEntry) (hent : a.entries = some es)
    (hstat : ¬ FS.statOk fs a.destDir)
    (hmk : FS.mkdirAll fs a.destDir = some fs2)
    (hex : extractEntries a.destDir fs2 es = (fsE, false)) :
    runStep fs a = fsE ∧ FS.isDir fsE a.destDir ∧ runStep fsE a = fsE := by
  have hne : a.destDir ≠ [] := fun he => hstat (Or.inl (Or.inl he))
  have hd2 : FS.isDir fs2 a.destDir := isDir_mkdirAll_self hne hmk
  have hdE : FS.isDir fsE a.destDir := by
    have hm := extractEntries_isDir_mono a.destDir es fs2 a.destDir hd2
    rw [hex] at hm
    exact hm
  refine ⟨?_, hdE, runStep_of_blocked (Or.inl (Or.inl hdE))⟩
  unfold runStep
  rw [if_neg hstat]
  simp only [hmk, hent, hex]

/-- Claim C10, witness: a fresh state, one archive at destination `d` whose
only entry cannot be opened: the destination directory is created,
extraction fails, and the same archive is then skipped forever. -/
theorem C10_failed_extraction_never_retried_witness :
    runStep ⟨[], []⟩ ⟨["d"], some [⟨["x"], false, false, true, []⟩]⟩ =
        ⟨[["d"]], []⟩ ∧
      FS.isDir ⟨[["d"]], []⟩ ["d"] ∧
      runStep ⟨[["d"]], []⟩ ⟨["d"], some [⟨["x"], false, false, true, []⟩]⟩ =
        ⟨[["d"]], []⟩ :=
  C10_failed_extraction_never_retried ⟨[], []⟩ ⟨[["d"]], []⟩ ⟨[["d"]], []⟩
    ⟨["d"], some [⟨["x"], false, false, true, []⟩]⟩
    [⟨["x"], false, false, true, []⟩] rfl (by decide) rfl rfl
